import Mathlib

/-!
Hash combination utilities of libmamba.

A shallow embedding of `libmamba/src/core/hash_utils.cpp` and
`libmamba/include/mamba/core/hash_utils.hpp`.

Machine words are natural numbers; every C++ operation that wraps is followed
by an explicit reduction modulo `2^32` or `2^64`.  A word of width `w` is a
natural number below `2^w`.
-/

namespace Mamba

/-! ## The 32-bit combiner (`hash_utils.cpp`, lines 27-46) -/

namespace U32

/-- The number of values of a `std::uint32_t`. -/
def size : Nat := 2 ^ 32

/-- Embedding of `rotl(std::uint32_t x, std::uint32_t r)`:
`(x << r) | (x >> (32 - r))`.  The left shift of an unsigned 32-bit word drops
the bits pushed out at the top.  The C++ shifts are defined for `0 < r < 32`. -/
def rotl (x r : Nat) : Nat :=
  ((x <<< r) % size) ||| (x >>> (32 - r))

/-- Embedding of `combine_hash_impl(std::uint32_t seed, std::uint32_t value)`. -/
def combine_hash_impl (seed value : Nat) : Nat :=
  let c1 : Nat := 0xcc9e2d51
  let c2 : Nat := 0x1b873593
  let value := value * c1 % size
  let value := rotl value 15
  let value := value * c2 % size
  let seed := seed ^^^ value
  let seed := rotl seed 13
  let seed := (seed * 5 % size + 0xe6546b64) % size
  seed

end U32

/-! ## The 64-bit combiner (`hash_utils.cpp`, lines 48-64) -/

namespace U64

/-- The number of values of a `std::uint64_t`. -/
def size : Nat := 2 ^ 64

/-- Embedding of `combine_hash_impl(std::uint64_t seed, std::uint64_t value)`. -/
def combine_hash_impl (seed value : Nat) : Nat :=
  let m : Nat := 0xc6a4a7935bd1e995
  let r : Nat := 47
  let value := value * m % size
  let value := value ^^^ (value >>> r)
  let value := value * m % size
  let seed := seed ^^^ value
  let seed := seed * m % size
  let seed := (seed + 0xe6546b64) % size
  seed

end U64

/-! ## `combine_hash` and the tuple hash (`hash_utils.hpp`) -/

/-- The width of `std::size_t` on the target: it selects the overload of
`combine_hash_impl` that `combine_hash` calls. -/
inductive SizeT where
  | u32
  | u64
  deriving DecidableEq, Repr

/-- The number of values of a `std::size_t`. -/
def SizeT.size : SizeT → Nat
  | .u32 => U32.size
  | .u64 => U64.size

/-- Embedding of `combine_hash(std::size_t seed, std::size_t value)`: the call
`combine_hash_impl(seed, value)` resolves to the overload of the width of
`std::size_t`. -/
def combine_hash (w : SizeT) (seed value : Nat) : Nat :=
  match w with
  | .u32 => U32.combine_hash_impl seed value
  | .u64 => U64.combine_hash_impl seed value

/-- One element of a heterogeneous tuple: its static type `α`, the
specialisation `std::hash<α>` selected by that type, and the stored value.
`std::hash` returns a `std::size_t`, which `hasher_lt` records. -/
structure Elem (w : SizeT) where
  α : Type
  hasher : α → Nat
  val : α
  hasher_lt : ∀ x, hasher x < w.size

/-- The value `Hasher{}(std::get<I>(t))` for an element. -/
def Elem.hash {w : SizeT} (e : Elem w) : Nat := e.hasher e.val

/-- A `std::tuple<T...>`: its elements in index order. -/
abbrev Tuple (w : SizeT) := List (Elem w)

/-- Embedding of `combine_hash_tuple<I>(seed, t)`: the template recursion on
the index `I`, guarded by `I < std::tuple_size_v<T>`. -/
def combine_hash_tuple {w : SizeT} (I : Nat) (seed : Nat) (t : Tuple w) : Nat :=
  if h : I < t.length then
    let seed := combine_hash w seed (t[I]).hash
    let seed := combine_hash_tuple (I + 1) seed t
    seed
  else
    seed
termination_by t.length - I

/-- Embedding of `std::hash<std::tuple<T...>>::operator()`. -/
def hash_tuple {w : SizeT} (t : Tuple w) : Nat :=
  combine_hash_tuple 0 0 t

/-- The element of type `int` (or any integer type converted to `std::size_t`)
whose hash is its own value: `std::hash<int>` is the conversion to
`std::size_t`. -/
def intElem (w : SizeT) (x : Int) : Elem w where
  α := Int
  hasher := fun y => (y % (w.size : Int)).toNat
  val := x
  hasher_lt := by
    intro y
    show (y % (w.size : Int)).toNat < w.size
    have hpos : (0 : Int) < (w.size : Int) := by
      cases w <;> simp [SizeT.size, U32.size, U64.size]
    have h1 := Int.emod_lt_of_pos y hpos
    have h2 := Int.emod_nonneg y (ne_of_gt hpos)
    omega

/-- The element of type `std::size_t`, whose hash is its own value. -/
def sizeElem (w : SizeT) (x : Nat) : Elem w where
  α := Nat
  hasher := fun y => y % w.size
  val := x
  hasher_lt := by
    intro y
    have hpos : 0 < w.size := by
      cases w <;> simp [SizeT.size, U32.size, U64.size]
    exact Nat.mod_lt y hpos

/-- The recursion of `combine_hash_tuple<I>(seed, t)` instrumented with the
number of calls of `combine_hash` it makes: the pair of the returned seed and
that number. -/
def combine_hash_tuple_counted {w : SizeT} (I : Nat) (seed : Nat) (t : Tuple w) :
    Nat × Nat :=
  if h : I < t.length then
    let seed := combine_hash w seed (t[I]).hash
    let rest := combine_hash_tuple_counted (I + 1) seed t
    (rest.1, rest.2 + 1)
  else
    (seed, 0)
termination_by t.length - I

/-! ## The algorithms as the specification words them -/

namespace Spec

/-- The tuple hash as an ordinary loop over the materialised list of element
hashes: the seed starts at `0` and each hash in turn is combined into it. -/
def hash_tuple_loop (w : SizeT) (hashes : List Nat) : Nat := Id.run do
  let mut seed := 0
  for value_hash in hashes do
    seed := combine_hash w seed value_hash
  return seed

/-- The closed form of the 64-bit combiner:
`((s XOR (((v*m) XOR ((v*m) >> 47)) * m)) * m + 0xe6546b64) mod 2^64`, the
products taken modulo `2^64`. -/
def combine64 (s v : Nat) : Nat :=
  let m : Nat := 0xc6a4a7935bd1e995
  let vm : Nat := v * m % 2 ^ 64
  ((s ^^^ ((vm ^^^ (vm >>> 47)) * m % 2 ^ 64)) * m + 0xe6546b64) % 2 ^ 64

/-- The closed form of the 32-bit combiner:
`(rotl(s XOR (rotl(v * 0xcc9e2d51, 15) * 0x1b873593), 13) * 5 + 0xe6546b64)
mod 2^32`, the products taken modulo `2^32`. -/
def combine32 (s v : Nat) : Nat :=
  (U32.rotl (s ^^^ (U32.rotl (v * 0xcc9e2d51 % 2 ^ 32) 15 * 0x1b873593 % 2 ^ 32)) 13 * 5
    + 0xe6546b64) % 2 ^ 32

end Spec

/-! ## Named parts of the 64-bit combiner -/

namespace U64

/-- The value-mixing prefix of the 64-bit `combine_hash_impl` (the three
statements on `value`, lines 54-56): what is XOR-ed into the seed. -/
def mix (value : Nat) : Nat :=
  let m : Nat := 0xc6a4a7935bd1e995
  let r : Nat := 47
  let value := value * m % size
  let value := value ^^^ (value >>> r)
  let value := value * m % size
  value

/-- The inverse of the multiplier `m = 0xc6a4a7935bd1e995` modulo `2^64`. -/
def minv : Nat := 0x5f7a0ea7e59b19bd

/-- The 64-bit word `x` with `x * m + 0xe6546b64 = y` modulo `2^64`: the seed
steps of lines 59-62 undone. -/
def unstep (y : Nat) : Nat :=
  (y + (2 ^ 64 - 0xe6546b64)) * minv % 2 ^ 64

/-- The word that decides whether swapping two elements changes the hash of a
pair: `combine_hash(0, v) XOR mix(v)`. -/
def swapKey (v : Nat) : Nat :=
  combine_hash_impl 0 v ^^^ mix v

end U64

/-! ## The 32-bit combiner with the shift amounts checked -/

namespace U32

/-- The C++ expression `x << s` on a `std::uint32_t`: defined only for a shift
amount below the width `32`; the bits pushed out at the top are dropped. -/
def shl (x s : Nat) : Option Nat :=
  if s < 32 then some ((x <<< s) % size) else none

/-- The C++ expression `x >> s` on a `std::uint32_t`: defined only for a shift
amount below the width `32`. -/
def shr (x s : Nat) : Option Nat :=
  if s < 32 then some (x >>> s) else none

/-- The body of `rotl` with both shifts checked; `32 - r` is computed in
unsigned 32-bit arithmetic, as in the source. -/
def rotl_checked (x r : Nat) : Option Nat := do
  let hi ← shl x r
  let lo ← shr x ((32 + size - r) % size)
  pure (hi ||| lo)

/-- The body of the 32-bit `combine_hash_impl` with the shifts of both calls of
`rotl` checked. -/
def combine_hash_impl_checked (seed value : Nat) : Option Nat := do
  let c1 : Nat := 0xcc9e2d51
  let c2 : Nat := 0x1b873593
  let value := value * c1 % size
  let value ← rotl_checked value 15
  let value := value * c2 % size
  let seed := seed ^^^ value
  let seed ← rotl_checked seed 13
  let seed := (seed * 5 % size + 0xe6546b64) % size
  pure seed

end U32

/-! ## Inverses of the two combiners -/

namespace U64

/-- The middle statement of the value mixing, `value ^= value >> 47`. -/
def xorshift (x : Nat) : Nat :=
  x ^^^ (x >>> 47)

/-- The value mixing undone: the three statements on `value` inverted in reverse
order (the multiplications by the inverse of `m`, the XOR-shift by itself). -/
def unmix (k : Nat) : Nat :=
  xorshift (k * minv % 2 ^ 64) * minv % 2 ^ 64

/-- The seed that `combine_hash_impl` sends to `y` with the value `v`. -/
def seed_of (y v : Nat) : Nat :=
  unstep y ^^^ mix v

/-- The value that `combine_hash_impl` sends to `y` from the seed `s`. -/
def value_of (s y : Nat) : Nat :=
  unmix (unstep y ^^^ s)

end U64

namespace U32

/-- The value-mixing prefix of the 32-bit `combine_hash_impl` (the three
statements on `value`, lines 38-40): what is XOR-ed into the seed. -/
def mix (value : Nat) : Nat :=
  let c1 : Nat := 0xcc9e2d51
  let c2 : Nat := 0x1b873593
  let value := value * c1 % size
  let value := rotl value 15
  let value := value * c2 % size
  value

/-- The 32-bit word `x` with `x * 5 + 0xe6546b64 = y` modulo `2^32`;
`0xcccccccd` is the inverse of `5` modulo `2^32`. -/
def unstep (y : Nat) : Nat :=
  (y + (2 ^ 32 - 0xe6546b64)) * 0xcccccccd % 2 ^ 32

/-- The value mixing undone; `0x56ed309b` and `0xdee13bb1` are the inverses of
`c2` and `c1` modulo `2^32`, and rotating on by `17` undoes the rotation by
`15`. -/
def unmix (k : Nat) : Nat :=
  rotl (k * 0x56ed309b % 2 ^ 32) 17 * 0xdee13bb1 % 2 ^ 32

/-- The seed that `combine_hash_impl` sends to `y` with the value `v`. -/
def seed_of (y v : Nat) : Nat :=
  rotl (unstep y) 19 ^^^ mix v

/-- The value that `combine_hash_impl` sends to `y` from the seed `s`. -/
def value_of (s y : Nat) : Nat :=
  unmix (rotl (unstep y) 19 ^^^ s)

end U32

/-- The seed that `combine_hash` sends to `y` with the value `v`. -/
def seed_of (w : SizeT) (y v : Nat) : Nat :=
  match w with
  | .u32 => U32.seed_of y v
  | .u64 => U64.seed_of y v

/-- The value that `combine_hash` sends to `y` from the seed `s`. -/
def value_of (w : SizeT) (s y : Nat) : Nat :=
  match w with
  | .u32 => U32.value_of s y
  | .u64 => U64.value_of s y

/-! ## Auxiliary facts -/

/-- The counting recursion returns the seed that `combine_hash_tuple` returns. -/
theorem combine_hash_tuple_counted_fst {w : SizeT} (t : Tuple w) :
    ∀ (n I seed : Nat), t.length - I = n →
      (combine_hash_tuple_counted I seed t).1 = combine_hash_tuple I seed t := by
  intro n
  induction n with
  | zero =>
    intro I seed hn
    have hI : ¬ I < t.length := by omega
    rw [combine_hash_tuple_counted, combine_hash_tuple, dif_neg hI, dif_neg hI]
  | succ k ih =>
    intro I seed hn
    have hI : I < t.length := by omega
    rw [combine_hash_tuple_counted, combine_hash_tuple, dif_pos hI, dif_pos hI]
    exact ih (I + 1) _ (by omega)

/-- The 64-bit combiner in terms of its value-mixing prefix. -/
theorem U64.combine_hash_impl_mix (s v : Nat) :
    U64.combine_hash_impl s v
      = ((s ^^^ U64.mix v) * 0xc6a4a7935bd1e995 % 2 ^ 64 + 0xe6546b64) % 2 ^ 64 := rfl

theorem U64.mix_lt (v : Nat) : U64.mix v < 2 ^ 64 :=
  Nat.mod_lt _ (by decide)

theorem U64.combine_hash_impl_lt (s v : Nat) : U64.combine_hash_impl s v < 2 ^ 64 :=
  Nat.mod_lt _ (by decide)

/-- Multiplication by `m` modulo `2^64` is undone by multiplication by `minv`. -/
theorem U64.mul_m_mul_minv (x : Nat) (hx : x < 2 ^ 64) :
    x * 0xc6a4a7935bd1e995 % 2 ^ 64 * 0x5f7a0ea7e59b19bd % 2 ^ 64 = x := by
  omega

/-- Multiplication by `minv` modulo `2^64` is undone by multiplication by `m`. -/
theorem U64.mul_minv_mul_m (x : Nat) (hx : x < 2 ^ 64) :
    x * 0x5f7a0ea7e59b19bd % 2 ^ 64 * 0xc6a4a7935bd1e995 % 2 ^ 64 = x := by
  omega

/-- The seed steps `x * m + 0xe6546b64` are injective on 64-bit words. -/
theorem U64.step_injective (a b : Nat) (ha : a < 2 ^ 64) (hb : b < 2 ^ 64)
    (h : (a * 0xc6a4a7935bd1e995 % 2 ^ 64 + 0xe6546b64) % 2 ^ 64
        = (b * 0xc6a4a7935bd1e995 % 2 ^ 64 + 0xe6546b64) % 2 ^ 64) : a = b := by
  have h1 : a * 0xc6a4a7935bd1e995 % 2 ^ 64 = b * 0xc6a4a7935bd1e995 % 2 ^ 64 := by
    have hx : a * 0xc6a4a7935bd1e995 % 2 ^ 64 < 2 ^ 64 := Nat.mod_lt _ (by decide)
    have hy : b * 0xc6a4a7935bd1e995 % 2 ^ 64 < 2 ^ 64 := Nat.mod_lt _ (by decide)
    generalize a * 0xc6a4a7935bd1e995 % 2 ^ 64 = x at h hx
    generalize b * 0xc6a4a7935bd1e995 % 2 ^ 64 = y at h hy
    omega
  rw [← U64.mul_m_mul_minv a ha, ← U64.mul_m_mul_minv b hb, h1]

/-- The seed steps send `t` to `y` exactly when `t` is `unstep y`. -/
theorem U64.step_eq_iff (t y : Nat) (ht : t < 2 ^ 64) (hy : y < 2 ^ 64) :
    (t * 0xc6a4a7935bd1e995 % 2 ^ 64 + 0xe6546b64) % 2 ^ 64 = y ↔ t = U64.unstep y := by
  have hu : U64.unstep y < 2 ^ 64 := Nat.mod_lt _ (by decide)
  have hstep : (U64.unstep y * 0xc6a4a7935bd1e995 % 2 ^ 64 + 0xe6546b64) % 2 ^ 64 = y := by
    have h1 : U64.unstep y * 0xc6a4a7935bd1e995 % 2 ^ 64
        = (y + (2 ^ 64 - 0xe6546b64)) % 2 ^ 64 := by
      unfold U64.unstep U64.minv
      generalize y + (2 ^ 64 - 0xe6546b64) = z
      omega
    rw [h1]
    omega
  constructor
  · intro h
    exact U64.step_injective t _ ht hu (h.trans hstep.symm)
  · intro h
    rw [h]
    exact hstep

/-- The left fold over a list of two elements. -/
theorem foldl_pair {α β : Type} (f : β → α → β) (s : β) (a b : α) :
    List.foldl f s [a, b] = f (f s a) b := rfl

/-- Exchanging the right operands of two XORs on the two sides of an equation. -/
theorem xor_exchange (p q x y : Nat) : p ^^^ y = q ^^^ x ↔ p ^^^ x = q ^^^ y := by
  have key : ∀ p q x y : Nat, p ^^^ y = q ^^^ x → p ^^^ x = q ^^^ y := by
    intro p q x y h
    calc p ^^^ x = (p ^^^ y) ^^^ (y ^^^ x) := by rw [Nat.xor_assoc, Nat.xor_cancel_left]
      _ = (q ^^^ x) ^^^ (x ^^^ y) := by rw [h, Nat.xor_comm y x]
      _ = q ^^^ y := by rw [Nat.xor_assoc, Nat.xor_cancel_left]
  exact ⟨key p q x y, key p q y x⟩

/-- Unfolding of the template recursion: from index `I` on, the recursion is the
left fold of `combine_hash` over the remaining element hashes. -/
theorem combine_hash_tuple_eq_foldl_drop {w : SizeT} (t : Tuple w) :
    ∀ (n I seed : Nat), t.length - I = n →
      combine_hash_tuple I seed t
        = List.foldl (combine_hash w) seed ((t.map Elem.hash).drop I) := by
  intro n
  induction n with
  | zero =>
    intro I seed hn
    have hI : ¬ I < t.length := by omega
    rw [combine_hash_tuple, dif_neg hI]
    rw [List.drop_eq_nil_of_le (by simp; omega)]
    rfl
  | succ k ih =>
    intro I seed hn
    have hI : I < t.length := by omega
    have hI2 : I < (t.map Elem.hash).length := by simpa using hI
    rw [combine_hash_tuple, dif_pos hI]
    rw [List.drop_eq_getElem_cons hI2, List.foldl_cons, List.getElem_map]
    exact ih (I + 1) _ (by omega)

/-- The tuple hash is the left fold of `combine_hash` from seed `0`. -/
theorem hash_tuple_foldl {w : SizeT} (t : Tuple w) :
    hash_tuple t = List.foldl (combine_hash w) 0 (t.map Elem.hash) := by
  unfold hash_tuple
  rw [combine_hash_tuple_eq_foldl_drop t (t.length - 0) 0 0 rfl, List.drop_zero]

/-- The loop of the specification is a left fold. -/
theorem Spec.hash_tuple_loop_foldl (w : SizeT) (hashes : List Nat) :
    Spec.hash_tuple_loop w hashes = List.foldl (combine_hash w) 0 hashes := by
  have key : ∀ (l : List Nat) (seed : Nat),
      (forIn l seed fun value_hash r => ForInStep.yield (combine_hash w r value_hash) : Id Nat)
        = List.foldl (combine_hash w) seed l := by
    intro l
    induction l with
    | nil => intro seed; rfl
    | cons a l ih =>
      intro seed
      rw [List.forIn_cons, List.foldl_cons]
      exact ih (combine_hash w seed a)
  unfold Spec.hash_tuple_loop
  simpa [Id.run] using key hashes 0

/-- The counting recursion started at or past the arity makes no call of
`combine_hash` and hands the seed back. -/
theorem combine_hash_tuple_counted_of_le {w : SizeT} (t : Tuple w) (I seed : Nat)
    (h : t.length ≤ I) : combine_hash_tuple_counted I seed t = (seed, 0) := by
  rw [combine_hash_tuple_counted, dif_neg (by omega)]

/-! ## The tuple hash is a left fold -/

/-- C1: for every tuple, `std::hash<std::tuple<...>>` returns the left fold of
`combine_hash` over the element hashes in ascending index order, starting from
seed `0`; the template recursion `combine_hash_tuple<0>` equals the ordinary
loop over the list of element hashes. -/
theorem hash_tuple_eq_left_fold {w : SizeT} (t : Tuple w) :
    hash_tuple t = List.foldl (combine_hash w) 0 (t.map Elem.hash)
      ∧ combine_hash_tuple 0 0 t = Spec.hash_tuple_loop w (t.map Elem.hash) := by
  refine ⟨hash_tuple_foldl t, ?_⟩
  rw [Spec.hash_tuple_loop_foldl]
  exact hash_tuple_foldl t

/-! ## The two combiners in closed form -/

/-- C2: the 64-bit `combine_hash_impl` returns
`((s XOR (((v*m) XOR ((v*m) >> 47)) * m)) * m + 0xe6546b64) mod 2^64` with
`m = 0xc6a4a7935bd1e995`, and so does `combine_hash` where `std::size_t` has 64
bits; the result is a 64-bit word. -/
theorem combine_hash_impl_u64_closed_form (s v : Nat) :
    U64.combine_hash_impl s v = Spec.combine64 s v
      ∧ combine_hash .u64 s v = Spec.combine64 s v
      ∧ U64.combine_hash_impl s v < 2 ^ 64 := by
  have h : U64.combine_hash_impl s v = Spec.combine64 s v := by
    simp only [U64.combine_hash_impl, Spec.combine64, U64.size, Nat.mod_add_mod]
  refine ⟨h, h, ?_⟩
  rw [h]
  exact Nat.mod_lt _ (by decide)

/-- C3: the 32-bit `combine_hash_impl` returns
`(rotl(s XOR (rotl(v * 0xcc9e2d51, 15) * 0x1b873593), 13) * 5 + 0xe6546b64)
mod 2^32`, and so does `combine_hash` where `std::size_t` has 32 bits; the
result is a 32-bit word. -/
theorem combine_hash_impl_u32_closed_form (s v : Nat) :
    U32.combine_hash_impl s v = Spec.combine32 s v
      ∧ combine_hash .u32 s v = Spec.combine32 s v
      ∧ U32.combine_hash_impl s v < 2 ^ 32 := by
  have h : U32.combine_hash_impl s v = Spec.combine32 s v := by
    simp only [U32.combine_hash_impl, Spec.combine32, U32.size, Nat.mod_add_mod]
  refine ⟨h, h, ?_⟩
  rw [h]
  exact Nat.mod_lt _ (by decide)

/-- C4: `combine(0, 0)` is the added constant `0xe6546b64`, hence not `0`, in the
32-bit and in the 64-bit variant. -/
theorem combine_hash_zero_zero_ne_zero :
    U32.combine_hash_impl 0 0 = 0xe6546b64 ∧ U32.combine_hash_impl 0 0 ≠ 0
      ∧ U64.combine_hash_impl 0 0 = 0xe6546b64 ∧ U64.combine_hash_impl 0 0 ≠ 0
      ∧ combine_hash .u32 0 0 ≠ 0 ∧ combine_hash .u64 0 0 ≠ 0 := by
  decide

/-- C5: the hash of the empty tuple is `0`: `combine_hash_tuple<0>` on seed `0`
and the tuple without elements makes no call of `combine_hash` and returns the
seed `0`. -/
theorem hash_tuple_nil (w : SizeT) :
    hash_tuple ([] : Tuple w) = 0
      ∧ combine_hash_tuple_counted 0 0 ([] : Tuple w) = (0, 0) := by
  constructor
  · rw [hash_tuple_foldl]
    rfl
  · exact combine_hash_tuple_counted_of_le [] 0 0 (Nat.le_refl _)

/-! ## Order sensitivity of the pair hash -/

/-- C6, on the code: the two distinct 64-bit element hashes `0` and
`0x8ea7e59b19bd0000` give the same hash in both orders, at the level of
`combine_hash` and at the level of the tuple hash; so the pair hash does not
separate every two distinct element hashes. -/
theorem hash_pair_swap_collision :
    (0 : Nat) ≠ 0x8ea7e59b19bd0000 ∧ 0x8ea7e59b19bd0000 < 2 ^ 64
      ∧ combine_hash .u64 (combine_hash .u64 0 0) 0x8ea7e59b19bd0000
          = combine_hash .u64 (combine_hash .u64 0 0x8ea7e59b19bd0000) 0
      ∧ hash_tuple [sizeElem .u64 0, sizeElem .u64 0x8ea7e59b19bd0000]
          = hash_tuple [sizeElem .u64 0x8ea7e59b19bd0000, sizeElem .u64 0]
      ∧ ¬ (∀ a b : Nat, a < 2 ^ 64 → b < 2 ^ 64 → a ≠ b →
            combine_hash .u64 (combine_hash .u64 0 a) b
              ≠ combine_hash .u64 (combine_hash .u64 0 b) a) := by
  refine ⟨by decide, by decide, by decide, ?_, ?_⟩
  · rw [hash_tuple_foldl, hash_tuple_foldl]
    decide
  · intro h
    exact h 0 0x8ea7e59b19bd0000 (by decide) (by decide) (by decide) (by decide)

/-- C6, amended: in the 64-bit variant the hash of the pair `(x, y)` is
`combine_hash(combine_hash(0, h_x), h_y)`, and it differs from the hash of
`(y, x)` exactly when `combine_hash(0, h) XOR mix(h)` differs between the two
element hashes, `mix` being the value-mixing prefix of `combine_hash_impl`. -/
theorem hash_pair_swap_ne_iff (x y : Elem .u64) :
    hash_tuple [x, y] = combine_hash .u64 (combine_hash .u64 0 x.hash) y.hash
      ∧ (hash_tuple [x, y] ≠ hash_tuple [y, x]
          ↔ U64.swapKey x.hash ≠ U64.swapKey y.hash) := by
  have hxy : ∀ p q : Elem .u64,
      hash_tuple [p, q] = combine_hash .u64 (combine_hash .u64 0 p.hash) q.hash := by
    intro p q
    rewrite [hash_tuple_foldl]
    exact foldl_pair (combine_hash .u64) 0 p.hash q.hash
  refine ⟨hxy x y, ?_⟩
  rw [hxy x y, hxy y x]
  apply not_congr
  show U64.combine_hash_impl (U64.combine_hash_impl 0 x.hash) y.hash
      = U64.combine_hash_impl (U64.combine_hash_impl 0 y.hash) x.hash ↔ _
  unfold U64.swapKey
  rw [← xor_exchange]
  have ha : U64.combine_hash_impl 0 x.hash ^^^ U64.mix y.hash < 2 ^ 64 :=
    Nat.xor_lt_two_pow (U64.combine_hash_impl_lt _ _) (U64.mix_lt _)
  have hb : U64.combine_hash_impl 0 y.hash ^^^ U64.mix x.hash < 2 ^ 64 :=
    Nat.xor_lt_two_pow (U64.combine_hash_impl_lt _ _) (U64.mix_lt _)
  constructor
  · intro h
    rw [U64.combine_hash_impl_mix (U64.combine_hash_impl 0 x.hash),
      U64.combine_hash_impl_mix (U64.combine_hash_impl 0 y.hash)] at h
    exact U64.step_injective _ _ ha hb h
  · intro h
    rw [U64.combine_hash_impl_mix (U64.combine_hash_impl 0 x.hash),
      U64.combine_hash_impl_mix (U64.combine_hash_impl 0 y.hash), h]

/-! ## The result against the seed and the value -/

/-- C7, on the code: the 64-bit `combine_hash` returns its seed at
`(0xe6546b64, 0xa0ef8ba6da62a025)` and returns its value at
`(0x8d1696e3ba3f32c, 0)`; so it does not differ from the seed and from the value
for all 64-bit inputs. -/
theorem combine_hash_returns_seed_or_value :
    0xe6546b64 < 2 ^ 64 ∧ 0xa0ef8ba6da62a025 < 2 ^ 64
      ∧ combine_hash .u64 0xe6546b64 0xa0ef8ba6da62a025 = 0xe6546b64
      ∧ 0x8d1696e3ba3f32c < 2 ^ 64
      ∧ combine_hash .u64 0x8d1696e3ba3f32c 0 = 0
      ∧ ¬ (∀ s v : Nat, s < 2 ^ 64 → v < 2 ^ 64 →
            combine_hash .u64 s v ≠ s ∧ combine_hash .u64 s v ≠ v) := by
  refine ⟨by decide, by decide, by decide, by decide, by decide, ?_⟩
  intro h
  exact (h 0xe6546b64 0xa0ef8ba6da62a025 (by decide) (by decide)).1 (by decide)

/-- C7, amended: for 64-bit `s` and `v`, `combine_hash(s, v)` equals `s` exactly
when `mix(v) = s XOR unstep(s)` and equals `v` exactly when
`s = mix(v) XOR unstep(v)`, where `mix` is the value-mixing prefix of
`combine_hash_impl` and `unstep(y) = (y - 0xe6546b64) * m⁻¹ mod 2^64`; both
exceptional words are 64-bit words, and everywhere else the result differs from
the seed and from the value. -/
theorem combine_hash_eq_seed_or_value_iff (s v : Nat) (hs : s < 2 ^ 64) (hv : v < 2 ^ 64) :
    (combine_hash .u64 s v = s ↔ U64.mix v = s ^^^ U64.unstep s)
      ∧ (combine_hash .u64 s v = v ↔ s = U64.mix v ^^^ U64.unstep v)
      ∧ s ^^^ U64.unstep s < 2 ^ 64 ∧ U64.mix v ^^^ U64.unstep v < 2 ^ 64 := by
  have hk : U64.mix v < 2 ^ 64 := U64.mix_lt v
  have ht : s ^^^ U64.mix v < 2 ^ 64 := Nat.xor_lt_two_pow hs hk
  have hus : U64.unstep s < 2 ^ 64 := Nat.mod_lt _ (by decide)
  have huv : U64.unstep v < 2 ^ 64 := Nat.mod_lt _ (by decide)
  have hc : combine_hash .u64 s v
      = ((s ^^^ U64.mix v) * 0xc6a4a7935bd1e995 % 2 ^ 64 + 0xe6546b64) % 2 ^ 64 :=
    U64.combine_hash_impl_mix s v
  refine ⟨?_, ?_, Nat.xor_lt_two_pow hs hus, Nat.xor_lt_two_pow hk huv⟩
  · rw [hc, U64.step_eq_iff _ _ ht hs]
    constructor
    · intro h
      rw [← h, Nat.xor_cancel_left]
    · intro h
      rw [h, Nat.xor_cancel_left]
  · rw [hc, U64.step_eq_iff _ _ ht hv]
    constructor
    · intro h
      rw [← h, Nat.xor_comm s, Nat.xor_cancel_left]
    · intro h
      rw [h, Nat.xor_comm (U64.mix v), Nat.xor_assoc, Nat.xor_self, Nat.xor_zero]

/-- The amended C7 at the seed `0xe6546b64` and the value `0xa0ef8ba6da62a025`. -/
theorem combine_hash_eq_seed_or_value_iff_witness :
    (0xe6546b64 < 2 ^ 64 ∧ 0xa0ef8ba6da62a025 < 2 ^ 64)
      ∧ ((combine_hash .u64 0xe6546b64 0xa0ef8ba6da62a025 = 0xe6546b64
            ↔ U64.mix 0xa0ef8ba6da62a025 = 0xe6546b64 ^^^ U64.unstep 0xe6546b64)
        ∧ (combine_hash .u64 0xe6546b64 0xa0ef8ba6da62a025 = 0xa0ef8ba6da62a025
            ↔ 0xe6546b64 = U64.mix 0xa0ef8ba6da62a025 ^^^ U64.unstep 0xa0ef8ba6da62a025)
        ∧ 0xe6546b64 ^^^ U64.unstep 0xe6546b64 < 2 ^ 64
        ∧ U64.mix 0xa0ef8ba6da62a025 ^^^ U64.unstep 0xa0ef8ba6da62a025 < 2 ^ 64) :=
  ⟨⟨by decide, by decide⟩,
    combine_hash_eq_seed_or_value_iff 0xe6546b64 0xa0ef8ba6da62a025 (by decide) (by decide)⟩

/-- C8: on the four pairs of the test, `(0,0)`, `(0,15)`, `(17,17)` and `(32,0)`,
the 64-bit `combine_hash(seed, value)` differs from the seed and from the
value. -/
theorem combine_hash_test_pairs :
    (combine_hash .u64 0 0 ≠ 0 ∧ combine_hash .u64 0 0 ≠ 0)
      ∧ (combine_hash .u64 0 15 ≠ 0 ∧ combine_hash .u64 0 15 ≠ 15)
      ∧ (combine_hash .u64 17 17 ≠ 17 ∧ combine_hash .u64 17 17 ≠ 17)
      ∧ (combine_hash .u64 32 0 ≠ 32 ∧ combine_hash .u64 32 0 ≠ 0) := by
  decide

/-! ## The tuples of the tests -/

/-- C9: with the hash of an integer element being its own value, the 64-bit
tuple hashes of `(1,3)` and `(3,1)` differ, and the hashes of `(1,2,3)`,
`(3,2,1)` and `(1,3,2)` are pairwise distinct. -/
theorem hash_tuple_test_order_sensitive :
    ((intElem .u64 1).hash = 1 ∧ (intElem .u64 2).hash = 2 ∧ (intElem .u64 3).hash = 3)
      ∧ hash_tuple [intElem .u64 1, intElem .u64 3]
          ≠ hash_tuple [intElem .u64 3, intElem .u64 1]
      ∧ hash_tuple [intElem .u64 1, intElem .u64 2, intElem .u64 3]
          ≠ hash_tuple [intElem .u64 3, intElem .u64 2, intElem .u64 1]
      ∧ hash_tuple [intElem .u64 1, intElem .u64 2, intElem .u64 3]
          ≠ hash_tuple [intElem .u64 1, intElem .u64 3, intElem .u64 2]
      ∧ hash_tuple [intElem .u64 3, intElem .u64 2, intElem .u64 1]
          ≠ hash_tuple [intElem .u64 1, intElem .u64 3, intElem .u64 2] := by
  simp only [hash_tuple_foldl]
  decide

/-- C10: the tuple hash depends only on the ordered sequence of element hashes:
two tuples of the same arity whose elements have equal hashes index by index
(whatever their types and values) have the same hash; in particular a tuple
hashed twice gives the same result. -/
theorem hash_tuple_congr {w : SizeT} (t1 t2 : Tuple w) (hlen : t1.length = t2.length)
    (h : ∀ (i : Nat) (h1 : i < t1.length) (h2 : i < t2.length),
      (t1[i]).hash = (t2[i]).hash) :
    hash_tuple t1 = hash_tuple t2 := by
  have hmap : t1.map Elem.hash = t2.map Elem.hash := by
    apply List.ext_getElem
    · simp [hlen]
    · intro n h1 h2
      rw [List.getElem_map, List.getElem_map]
      exact h n (by simpa using h1) (by simpa using h2)
  rw [hash_tuple_foldl, hash_tuple_foldl, hmap]

/-- C10 at the tuples `(1, 3)` of two `int` and of two `std::size_t`. -/
theorem hash_tuple_congr_witness :
    [intElem .u64 1, intElem .u64 3].length = [sizeElem .u64 1, sizeElem .u64 3].length
      ∧ (intElem .u64 1).hash = (sizeElem .u64 1).hash
      ∧ (intElem .u64 3).hash = (sizeElem .u64 3).hash
      ∧ hash_tuple [intElem .u64 1, intElem .u64 3]
          = hash_tuple [sizeElem .u64 1, sizeElem .u64 3] :=
  ⟨rfl, by decide, by decide,
    hash_tuple_congr [intElem .u64 1, intElem .u64 3] [sizeElem .u64 1, sizeElem .u64 3] rfl
      (by
        intro i h1 h2
        have hi : i < 2 := h1
        interval_cases i <;> rfl)⟩

/-! ## Termination and cost of the template recursion -/

/-- The counting recursion makes `t.length - I` calls of `combine_hash`. -/
theorem combine_hash_tuple_counted_snd {w : SizeT} (t : Tuple w) :
    ∀ (n I seed : Nat), t.length - I = n →
      (combine_hash_tuple_counted I seed t).2 = t.length - I := by
  intro n
  induction n with
  | zero =>
    intro I seed hn
    have hI : ¬ I < t.length := by omega
    rw [combine_hash_tuple_counted, dif_neg hI]
    omega
  | succ k ih =>
    intro I seed hn
    have hI : I < t.length := by omega
    rw [combine_hash_tuple_counted, dif_pos hI]
    show (combine_hash_tuple_counted (I + 1) _ t).2 + 1 = t.length - I
    rw [ih (I + 1) _ (by omega)]
    omega

/-- C11: for every tuple, start index `I` and seed, `combine_hash_tuple<I>`
returns (the recursion is total, its measure `n - I` decreasing at each call),
makes exactly `n - I` calls of `combine_hash` (none when `I >= n`), and returns
the left fold of `combine_hash` over the element hashes from index `I` on,
starting from the seed; for `I >= n` it returns the seed unchanged. -/
theorem combine_hash_tuple_terminates_counted {w : SizeT} (t : Tuple w) (I seed : Nat) :
    combine_hash_tuple_counted I seed t
        = (List.foldl (combine_hash w) seed ((t.map Elem.hash).drop I), t.length - I)
      ∧ combine_hash_tuple I seed t
        = List.foldl (combine_hash w) seed ((t.map Elem.hash).drop I)
      ∧ (∀ h : I < t.length,
          t.length - (I + 1) < t.length - I
            ∧ combine_hash_tuple I seed t
              = combine_hash_tuple (I + 1) (combine_hash w seed (t[I]).hash) t)
      ∧ (t.length ≤ I →
          combine_hash_tuple I seed t = seed
            ∧ combine_hash_tuple_counted I seed t = (seed, 0)) := by
  have hfold := combine_hash_tuple_eq_foldl_drop t (t.length - I) I seed rfl
  have hfst := combine_hash_tuple_counted_fst t (t.length - I) I seed rfl
  have hsnd := combine_hash_tuple_counted_snd t (t.length - I) I seed rfl
  refine ⟨?_, hfold, ?_, ?_⟩
  · rw [← hfold, ← hfst, ← hsnd]
  · intro h
    refine ⟨by omega, ?_⟩
    rw [combine_hash_tuple, dif_pos h]
  · intro h
    refine ⟨?_, combine_hash_tuple_counted_of_le t I seed h⟩
    rw [combine_hash_tuple, dif_neg (by omega)]

/-- C11 at the tuple `(1, 2, 3)`, start index `1` and seed `7`: two calls of
`combine_hash`, on the hashes `2` and `3`; and at start index `3`: none. -/
theorem combine_hash_tuple_terminates_counted_witness :
    (1 < [intElem .u64 1, intElem .u64 2, intElem .u64 3].length
      ∧ [intElem .u64 1, intElem .u64 2, intElem .u64 3].length ≤ 3)
      ∧ combine_hash_tuple_counted 1 7 [intElem .u64 1, intElem .u64 2, intElem .u64 3]
          = (combine_hash .u64 (combine_hash .u64 7 2) 3, 2)
      ∧ combine_hash_tuple 3 7 [intElem .u64 1, intElem .u64 2, intElem .u64 3] = 7
      ∧ combine_hash_tuple 1 7 [intElem .u64 1, intElem .u64 2, intElem .u64 3]
          = combine_hash_tuple 2 (combine_hash .u64 7 2)
              [intElem .u64 1, intElem .u64 2, intElem .u64 3] :=
  ⟨⟨by decide, by decide⟩,
    (combine_hash_tuple_terminates_counted
      [intElem .u64 1, intElem .u64 2, intElem .u64 3] 1 7).1,
    ((combine_hash_tuple_terminates_counted
      [intElem .u64 1, intElem .u64 2, intElem .u64 3] 3 7).2.2.2 (by decide)).1,
    ((combine_hash_tuple_terminates_counted
      [intElem .u64 1, intElem .u64 2, intElem .u64 3] 1 7).2.2.1 (by decide)).2⟩

/-! ## The rotation of the 32-bit combiner -/

/-- With a shift amount strictly between `0` and `32`, both shifts of `rotl` are
defined and give the value of `rotl`. -/
theorem U32.rotl_checked_eq (x r : Nat) (hr0 : 0 < r) (hr : r < 32) :
    U32.rotl_checked x r = some (U32.rotl x r) := by
  have h2 : (32 + U32.size - r) % U32.size = 32 - r := by
    unfold U32.size
    omega
  have h3 : 32 - r < 32 := by omega
  simp only [U32.rotl_checked, U32.shl, U32.shr, h2, if_pos hr, if_pos h3, U32.rotl]
  rfl

/-- The rotation of a 32-bit word is a 32-bit word. -/
theorem U32.rotl_lt (x r : Nat) (hx : x < 2 ^ 32) : U32.rotl x r < 2 ^ 32 := by
  unfold U32.rotl U32.size
  apply Nat.or_lt_two_pow (Nat.mod_lt _ (by decide))
  rw [Nat.shiftRight_eq_div_pow]
  exact lt_of_le_of_lt (Nat.div_le_self _ _) hx

/-- The bits of a 32-bit word from position `32` on are clear. -/
theorem testBit_eq_false_of_word (x j : Nat) (hx : x < 2 ^ 32) (hj : 32 ≤ j) :
    x.testBit j = false :=
  Nat.testBit_lt_two_pow (lt_of_lt_of_le hx (Nat.pow_le_pow_right (by decide) hj))

/-- Bit `j` of `rotl x r` is bit `j - r` of `x`, the position taken modulo `32`. -/
theorem U32.rotl_testBit (x r j : Nat) (hx : x < 2 ^ 32) (hr0 : 0 < r) (hr : r < 32)
    (hj : j < 32) :
    (U32.rotl x r).testBit j = x.testBit ((j + (32 - r)) % 32) := by
  unfold U32.rotl U32.size
  rw [Nat.testBit_or, Nat.testBit_mod_two_pow, Nat.testBit_shiftLeft, Nat.testBit_shiftRight]
  by_cases hjr : r ≤ j
  · have h1 : (j + (32 - r)) % 32 = j - r := by omega
    have h2 : x.testBit (32 - r + j) = false :=
      testBit_eq_false_of_word x _ hx (by omega)
    rw [h1, h2]
    simp [hj, hjr]
  · have h1 : (j + (32 - r)) % 32 = 32 - r + j := by omega
    rw [h1]
    simp [hjr]

/-- Rotating left by `r` and then by `32 - r` gives the word back. -/
theorem U32.rotl_rotl (x r : Nat) (hx : x < 2 ^ 32) (hr0 : 0 < r) (hr : r < 32) :
    U32.rotl (U32.rotl x r) (32 - r) = x := by
  apply Nat.eq_of_testBit_eq
  intro j
  by_cases hj : j < 32
  · rw [U32.rotl_testBit _ _ j (U32.rotl_lt x r hx) (by omega) (by omega) hj,
      U32.rotl_testBit x r _ hx hr0 hr (Nat.mod_lt _ (by decide))]
    congr 1
    omega
  · rw [testBit_eq_false_of_word _ j (U32.rotl_lt _ _ (U32.rotl_lt x r hx)) (by omega),
      testBit_eq_false_of_word x j hx (by omega)]

/-- The 32-bit combiner never leaves the domain of its shifts. -/
theorem U32.combine_hash_impl_checked_eq (s v : Nat) :
    U32.combine_hash_impl_checked s v = some (U32.combine_hash_impl s v) := by
  simp only [U32.combine_hash_impl_checked,
    U32.rotl_checked_eq _ 15 (by decide) (by decide),
    U32.rotl_checked_eq _ 13 (by decide) (by decide), U32.combine_hash_impl]
  rfl

/-- C12: for a 32-bit `x` and `0 < r < 32`, both shifts of `rotl(x, r)` have
amounts strictly between `0` and `32` (so they are defined and give
`(x << r) | (x >> (32 - r))`), the result is the left rotation of `x` by `r`
(bit `i` of `x` is bit `(i + r) mod 32` of the result, and rotating on by
`32 - r` gives `x` back), and `combine_hash_impl` calls `rotl` with the amounts
`15` and `13` only, so all its shifts are defined. -/
theorem rotl_is_left_rotation (x r : Nat) (hx : x < 2 ^ 32) (hr0 : 0 < r) (hr : r < 32) :
    (U32.shl x r = some ((x <<< r) % 2 ^ 32) ∧ U32.shr x (32 - r) = some (x >>> (32 - r))
        ∧ 0 < 32 - r ∧ 32 - r < 32)
      ∧ U32.rotl_checked x r = some (U32.rotl x r)
      ∧ U32.rotl x r < 2 ^ 32
      ∧ (∀ i : Nat, i < 32 → (U32.rotl x r).testBit ((i + r) % 32) = x.testBit i)
      ∧ U32.rotl (U32.rotl x r) (32 - r) = x
      ∧ (∀ s v : Nat,
          U32.combine_hash_impl_checked s v = some (U32.combine_hash_impl s v)) := by
  refine ⟨⟨?_, ?_, by omega, by omega⟩, U32.rotl_checked_eq x r hr0 hr, U32.rotl_lt x r hx,
    ?_, U32.rotl_rotl x r hx hr0 hr, U32.combine_hash_impl_checked_eq⟩
  · simp only [U32.shl, if_pos hr]
    rfl
  · have h3 : 32 - r < 32 := by omega
    simp only [U32.shr, if_pos h3]
  · intro i hi
    rw [U32.rotl_testBit x r _ hx hr0 hr (Nat.mod_lt _ (by decide))]
    congr 1
    omega

/-- C12 at the word `0x80000001` and the amount `15`. -/
theorem rotl_is_left_rotation_witness :
    (0x80000001 < 2 ^ 32 ∧ 0 < 15 ∧ 15 < 32)
      ∧ U32.rotl_checked 0x80000001 15 = some (U32.rotl 0x80000001 15)
      ∧ U32.rotl (U32.rotl 0x80000001 15) (32 - 15) = 0x80000001 :=
  ⟨⟨by decide, by decide, by decide⟩,
    (rotl_is_left_rotation 0x80000001 15 (by decide) (by decide) (by decide)).2.1,
    (rotl_is_left_rotation 0x80000001 15 (by decide) (by decide) (by decide)).2.2.2.2.1⟩

/-! ## The 64-bit combiner is a bijection in each argument -/

theorem U64.unstep_lt (y : Nat) : U64.unstep y < 2 ^ 64 :=
  Nat.mod_lt _ (by decide)

/-- Multiplication by `m` modulo `2^64` is injective on 64-bit words. -/
theorem U64.mul_m_injective (a b : Nat) (ha : a < 2 ^ 64) (hb : b < 2 ^ 64)
    (h : a * 0xc6a4a7935bd1e995 % 2 ^ 64 = b * 0xc6a4a7935bd1e995 % 2 ^ 64) : a = b := by
  rw [← U64.mul_m_mul_minv a ha, ← U64.mul_m_mul_minv b hb, h]

/-- The value mixing in terms of the XOR-shift. -/
theorem U64.mix_eq (v : Nat) :
    U64.mix v
      = U64.xorshift (v * 0xc6a4a7935bd1e995 % 2 ^ 64) * 0xc6a4a7935bd1e995 % 2 ^ 64 := rfl

/-- The bits of a 64-bit word from position `64` on are clear. -/
theorem testBit_eq_false_of_word64 (x j : Nat) (hx : x < 2 ^ 64) (hj : 64 ≤ j) :
    x.testBit j = false :=
  Nat.testBit_lt_two_pow (lt_of_lt_of_le hx (Nat.pow_le_pow_right (by decide) hj))

theorem U64.xorshift_lt (x : Nat) (hx : x < 2 ^ 64) : U64.xorshift x < 2 ^ 64 := by
  unfold U64.xorshift
  apply Nat.xor_lt_two_pow hx
  rw [Nat.shiftRight_eq_div_pow]
  exact lt_of_le_of_lt (Nat.div_le_self _ _) hx

/-- The XOR-shift by `47` is its own inverse on 64-bit words. -/
theorem U64.xorshift_xorshift (x : Nat) (hx : x < 2 ^ 64) :
    U64.xorshift (U64.xorshift x) = x := by
  apply Nat.eq_of_testBit_eq
  intro j
  unfold U64.xorshift
  rw [Nat.testBit_xor, Nat.testBit_shiftRight, Nat.testBit_xor, Nat.testBit_xor,
    Nat.testBit_shiftRight, Nat.testBit_shiftRight,
    testBit_eq_false_of_word64 x (47 + (47 + j)) hx (by omega)]
  cases x.testBit j <;> cases x.testBit (47 + j) <;> rfl

/-- The value mixing is injective on 64-bit words. -/
theorem U64.mix_injective (v1 v2 : Nat) (h1 : v1 < 2 ^ 64) (h2 : v2 < 2 ^ 64)
    (h : U64.mix v1 = U64.mix v2) : v1 = v2 := by
  have ha : v1 * 0xc6a4a7935bd1e995 % 2 ^ 64 < 2 ^ 64 := Nat.mod_lt _ (by decide)
  have hb : v2 * 0xc6a4a7935bd1e995 % 2 ^ 64 < 2 ^ 64 := Nat.mod_lt _ (by decide)
  rw [U64.mix_eq, U64.mix_eq] at h
  have hx := U64.mul_m_injective _ _ (U64.xorshift_lt _ ha) (U64.xorshift_lt _ hb) h
  have hy : v1 * 0xc6a4a7935bd1e995 % 2 ^ 64 = v2 * 0xc6a4a7935bd1e995 % 2 ^ 64 := by
    rw [← U64.xorshift_xorshift _ ha, ← U64.xorshift_xorshift _ hb, hx]
  exact U64.mul_m_injective v1 v2 h1 h2 hy

theorem U64.unmix_lt (k : Nat) : U64.unmix k < 2 ^ 64 :=
  Nat.mod_lt _ (by decide)

/-- The value mixing sends `unmix k` to `k`. -/
theorem U64.mix_unmix (k : Nat) (hk : k < 2 ^ 64) : U64.mix (U64.unmix k) = k := by
  have ha : k * 0x5f7a0ea7e59b19bd % 2 ^ 64 < 2 ^ 64 := Nat.mod_lt _ (by decide)
  have hb := U64.xorshift_lt _ ha
  rw [U64.mix_eq]
  unfold U64.unmix U64.minv
  rw [U64.mul_minv_mul_m _ hb, U64.xorshift_xorshift _ ha, U64.mul_minv_mul_m k hk]

/-- The 64-bit combiner is injective in the seed. -/
theorem U64.combine_hash_impl_seed_injective (v s1 s2 : Nat) (h1 : s1 < 2 ^ 64)
    (h2 : s2 < 2 ^ 64) (h : U64.combine_hash_impl s1 v = U64.combine_hash_impl s2 v) :
    s1 = s2 := by
  rw [U64.combine_hash_impl_mix s1 v, U64.combine_hash_impl_mix s2 v] at h
  have hx := U64.step_injective _ _ (Nat.xor_lt_two_pow h1 (U64.mix_lt v))
    (Nat.xor_lt_two_pow h2 (U64.mix_lt v)) h
  exact Nat.xor_left_injective hx

/-- The 64-bit combiner is injective in the value. -/
theorem U64.combine_hash_impl_value_injective (s v1 v2 : Nat) (hs : s < 2 ^ 64)
    (h1 : v1 < 2 ^ 64) (h2 : v2 < 2 ^ 64)
    (h : U64.combine_hash_impl s v1 = U64.combine_hash_impl s v2) : v1 = v2 := by
  rw [U64.combine_hash_impl_mix s v1, U64.combine_hash_impl_mix s v2] at h
  have hx := U64.step_injective _ _ (Nat.xor_lt_two_pow hs (U64.mix_lt v1))
    (Nat.xor_lt_two_pow hs (U64.mix_lt v2)) h
  exact U64.mix_injective v1 v2 h1 h2 (Nat.xor_right_injective hx)

/-- The 64-bit combiner sends the seed `seed_of y v` to `y`. -/
theorem U64.combine_hash_impl_seed_of (y v : Nat) (hy : y < 2 ^ 64) :
    U64.seed_of y v < 2 ^ 64 ∧ U64.combine_hash_impl (U64.seed_of y v) v = y := by
  have hu := U64.unstep_lt y
  refine ⟨Nat.xor_lt_two_pow hu (U64.mix_lt v), ?_⟩
  rw [U64.combine_hash_impl_mix]
  unfold U64.seed_of
  rw [Nat.xor_assoc, Nat.xor_self, Nat.xor_zero]
  exact (U64.step_eq_iff _ y hu hy).2 rfl

/-- The 64-bit combiner sends the value `value_of s y` to `y`. -/
theorem U64.combine_hash_impl_value_of (s y : Nat) (hs : s < 2 ^ 64) (hy : y < 2 ^ 64) :
    U64.value_of s y < 2 ^ 64 ∧ U64.combine_hash_impl s (U64.value_of s y) = y := by
  have hu := U64.unstep_lt y
  refine ⟨U64.unmix_lt _, ?_⟩
  rw [U64.combine_hash_impl_mix]
  unfold U64.value_of
  rw [U64.mix_unmix _ (Nat.xor_lt_two_pow hu hs), Nat.xor_comm (U64.unstep y),
    Nat.xor_cancel_left]
  exact (U64.step_eq_iff _ y hu hy).2 rfl

/-! ## The 32-bit combiner is a bijection in each argument -/

/-- The 32-bit combiner in terms of its value-mixing prefix. -/
theorem U32.combine_hash_impl_mix_u32 (s v : Nat) :
    U32.combine_hash_impl s v
      = (U32.rotl (s ^^^ U32.mix v) 13 * 5 % 2 ^ 32 + 0xe6546b64) % 2 ^ 32 := rfl

/-- The 32-bit value mixing, statement by statement. -/
theorem U32.mix_eq_u32 (v : Nat) :
    U32.mix v = U32.rotl (v * 0xcc9e2d51 % 2 ^ 32) 15 * 0x1b873593 % 2 ^ 32 := rfl

theorem U32.mix_lt_u32 (v : Nat) : U32.mix v < 2 ^ 32 :=
  Nat.mod_lt _ (by decide)

theorem U32.unstep_lt_u32 (y : Nat) : U32.unstep y < 2 ^ 32 :=
  Nat.mod_lt _ (by decide)

theorem U32.unmix_lt_u32 (k : Nat) : U32.unmix k < 2 ^ 32 :=
  Nat.mod_lt _ (by decide)

theorem U32.mul_c1_mul_inv (x : Nat) (hx : x < 2 ^ 32) :
    x * 0xcc9e2d51 % 2 ^ 32 * 0xdee13bb1 % 2 ^ 32 = x := by
  omega

theorem U32.mul_inv_mul_c1 (x : Nat) (hx : x < 2 ^ 32) :
    x * 0xdee13bb1 % 2 ^ 32 * 0xcc9e2d51 % 2 ^ 32 = x := by
  omega

theorem U32.mul_c2_mul_inv (x : Nat) (hx : x < 2 ^ 32) :
    x * 0x1b873593 % 2 ^ 32 * 0x56ed309b % 2 ^ 32 = x := by
  omega

theorem U32.mul_inv_mul_c2 (x : Nat) (hx : x < 2 ^ 32) :
    x * 0x56ed309b % 2 ^ 32 * 0x1b873593 % 2 ^ 32 = x := by
  omega

theorem U32.mul_5_mul_inv (x : Nat) (hx : x < 2 ^ 32) :
    x * 5 % 2 ^ 32 * 0xcccccccd % 2 ^ 32 = x := by
  omega

/-- The seed steps `x * 5 + 0xe6546b64` are injective on 32-bit words. -/
theorem U32.step_injective_u32 (a b : Nat) (ha : a < 2 ^ 32) (hb : b < 2 ^ 32)
    (h : (a * 5 % 2 ^ 32 + 0xe6546b64) % 2 ^ 32 = (b * 5 % 2 ^ 32 + 0xe6546b64) % 2 ^ 32) :
    a = b := by
  have h1 : a * 5 % 2 ^ 32 = b * 5 % 2 ^ 32 := by
    have hx : a * 5 % 2 ^ 32 < 2 ^ 32 := Nat.mod_lt _ (by decide)
    have hy : b * 5 % 2 ^ 32 < 2 ^ 32 := Nat.mod_lt _ (by decide)
    generalize a * 5 % 2 ^ 32 = x at h hx
    generalize b * 5 % 2 ^ 32 = y at h hy
    omega
  rw [← U32.mul_5_mul_inv a ha, ← U32.mul_5_mul_inv b hb, h1]

/-- The seed steps send `unstep y` to `y`. -/
theorem U32.step_unstep (y : Nat) (hy : y < 2 ^ 32) :
    (U32.unstep y * 5 % 2 ^ 32 + 0xe6546b64) % 2 ^ 32 = y := by
  have h1 : U32.unstep y * 5 % 2 ^ 32 = (y + (2 ^ 32 - 0xe6546b64)) % 2 ^ 32 := by
    unfold U32.unstep
    generalize y + (2 ^ 32 - 0xe6546b64) = z
    omega
  rw [h1]
  omega

/-- The rotation by an amount strictly between `0` and `32` is injective on
32-bit words. -/
theorem U32.rotl_injective (a b r : Nat) (ha : a < 2 ^ 32) (hb : b < 2 ^ 32)
    (hr0 : 0 < r) (hr : r < 32) (h : U32.rotl a r = U32.rotl b r) : a = b := by
  rw [← U32.rotl_rotl a r ha hr0 hr, ← U32.rotl_rotl b r hb hr0 hr, h]

theorem U32.rotl_19_13 (x : Nat) (hx : x < 2 ^ 32) : U32.rotl (U32.rotl x 19) 13 = x :=
  U32.rotl_rotl x 19 hx (by decide) (by decide)

theorem U32.rotl_17_15 (x : Nat) (hx : x < 2 ^ 32) : U32.rotl (U32.rotl x 17) 15 = x :=
  U32.rotl_rotl x 17 hx (by decide) (by decide)

/-- The 32-bit value mixing is injective on 32-bit words. -/
theorem U32.mix_injective_u32 (v1 v2 : Nat) (h1 : v1 < 2 ^ 32) (h2 : v2 < 2 ^ 32)
    (h : U32.mix v1 = U32.mix v2) : v1 = v2 := by
  have ha : v1 * 0xcc9e2d51 % 2 ^ 32 < 2 ^ 32 := Nat.mod_lt _ (by decide)
  have hb : v2 * 0xcc9e2d51 % 2 ^ 32 < 2 ^ 32 := Nat.mod_lt _ (by decide)
  rw [U32.mix_eq_u32, U32.mix_eq_u32] at h
  have hx : U32.rotl (v1 * 0xcc9e2d51 % 2 ^ 32) 15 = U32.rotl (v2 * 0xcc9e2d51 % 2 ^ 32) 15 := by
    rw [← U32.mul_c2_mul_inv _ (U32.rotl_lt _ 15 ha),
      ← U32.mul_c2_mul_inv _ (U32.rotl_lt _ 15 hb), h]
  have hy := U32.rotl_injective _ _ 15 ha hb (by decide) (by decide) hx
  rw [← U32.mul_c1_mul_inv v1 h1, ← U32.mul_c1_mul_inv v2 h2, hy]

/-- The 32-bit value mixing sends `unmix k` to `k`. -/
theorem U32.mix_unmix_u32 (k : Nat) (hk : k < 2 ^ 32) : U32.mix (U32.unmix k) = k := by
  have ha : k * 0x56ed309b % 2 ^ 32 < 2 ^ 32 := Nat.mod_lt _ (by decide)
  have hb := U32.rotl_lt _ 17 ha
  rw [U32.mix_eq_u32]
  unfold U32.unmix
  rw [U32.mul_inv_mul_c1 _ hb, U32.rotl_17_15 _ ha, U32.mul_inv_mul_c2 k hk]

/-- The 32-bit combiner is injective in the seed. -/
theorem U32.combine_hash_impl_seed_injective_u32 (v s1 s2 : Nat) (h1 : s1 < 2 ^ 32)
    (h2 : s2 < 2 ^ 32) (h : U32.combine_hash_impl s1 v = U32.combine_hash_impl s2 v) :
    s1 = s2 := by
  rw [U32.combine_hash_impl_mix_u32 s1 v, U32.combine_hash_impl_mix_u32 s2 v] at h
  have ha := Nat.xor_lt_two_pow h1 (U32.mix_lt_u32 v)
  have hb := Nat.xor_lt_two_pow h2 (U32.mix_lt_u32 v)
  have hx := U32.step_injective_u32 _ _ (U32.rotl_lt _ 13 ha) (U32.rotl_lt _ 13 hb) h
  exact Nat.xor_left_injective
    (U32.rotl_injective _ _ 13 ha hb (by decide) (by decide) hx)

/-- The 32-bit combiner is injective in the value. -/
theorem U32.combine_hash_impl_value_injective_u32 (s v1 v2 : Nat) (hs : s < 2 ^ 32)
    (h1 : v1 < 2 ^ 32) (h2 : v2 < 2 ^ 32)
    (h : U32.combine_hash_impl s v1 = U32.combine_hash_impl s v2) : v1 = v2 := by
  rw [U32.combine_hash_impl_mix_u32 s v1, U32.combine_hash_impl_mix_u32 s v2] at h
  have ha := Nat.xor_lt_two_pow hs (U32.mix_lt_u32 v1)
  have hb := Nat.xor_lt_two_pow hs (U32.mix_lt_u32 v2)
  have hx := U32.step_injective_u32 _ _ (U32.rotl_lt _ 13 ha) (U32.rotl_lt _ 13 hb) h
  exact U32.mix_injective_u32 v1 v2 h1 h2
    (Nat.xor_right_injective (U32.rotl_injective _ _ 13 ha hb (by decide) (by decide) hx))

/-- The 32-bit combiner sends the seed `seed_of y v` to `y`. -/
theorem U32.combine_hash_impl_seed_of_u32 (y v : Nat) (hy : y < 2 ^ 32) :
    U32.seed_of y v < 2 ^ 32 ∧ U32.combine_hash_impl (U32.seed_of y v) v = y := by
  have hu := U32.unstep_lt_u32 y
  refine ⟨Nat.xor_lt_two_pow (U32.rotl_lt _ 19 hu) (U32.mix_lt_u32 v), ?_⟩
  rw [U32.combine_hash_impl_mix_u32]
  unfold U32.seed_of
  rw [Nat.xor_assoc, Nat.xor_self, Nat.xor_zero, U32.rotl_19_13 _ hu]
  exact U32.step_unstep y hy

/-- The 32-bit combiner sends the value `value_of s y` to `y`. -/
theorem U32.combine_hash_impl_value_of_u32 (s y : Nat) (hs : s < 2 ^ 32) (hy : y < 2 ^ 32) :
    U32.value_of s y < 2 ^ 32 ∧ U32.combine_hash_impl s (U32.value_of s y) = y := by
  have hu := U32.unstep_lt_u32 y
  have hr := U32.rotl_lt _ 19 hu
  refine ⟨U32.unmix_lt_u32 _, ?_⟩
  rw [U32.combine_hash_impl_mix_u32]
  unfold U32.value_of
  rw [U32.mix_unmix_u32 _ (Nat.xor_lt_two_pow hr hs), Nat.xor_comm (U32.rotl (U32.unstep y) 19),
    Nat.xor_cancel_left, U32.rotl_19_13 _ hu]
  exact U32.step_unstep y hy

/-! ## `combine_hash` is a bijection in the seed and in the value -/

/-- C13: for every value `v`, in the 32-bit and in the 64-bit variant, the map
`seed -> combine_hash(seed, v)` is injective on words (two different seeds never
give the same result) and reaches every word `y` (from the seed `seed_of y v`):
it is a bijection on the word. -/
theorem combine_hash_seed_bijective (w : SizeT) (v s1 s2 y : Nat) (h1 : s1 < w.size)
    (h2 : s2 < w.size) (hy : y < w.size) :
    (combine_hash w s1 v = combine_hash w s2 v → s1 = s2)
      ∧ (s1 ≠ s2 → combine_hash w s1 v ≠ combine_hash w s2 v)
      ∧ seed_of w y v < w.size
      ∧ combine_hash w (seed_of w y v) v = y := by
  have hinj : combine_hash w s1 v = combine_hash w s2 v → s1 = s2 := by
    cases w with
    | u32 => exact U32.combine_hash_impl_seed_injective_u32 v s1 s2 h1 h2
    | u64 => exact U64.combine_hash_impl_seed_injective v s1 s2 h1 h2
  have hsur : seed_of w y v < w.size ∧ combine_hash w (seed_of w y v) v = y := by
    cases w with
    | u32 => exact U32.combine_hash_impl_seed_of_u32 y v hy
    | u64 => exact U64.combine_hash_impl_seed_of y v hy
  exact ⟨hinj, fun hne heq => hne (hinj heq), hsur.1, hsur.2⟩

/-- C13 in the 32-bit variant at the value `7`, the seeds `1` and `2` and the
result `5`. -/
theorem combine_hash_seed_bijective_witness :
    ((1 : Nat) < SizeT.size .u32 ∧ (2 : Nat) < SizeT.size .u32 ∧ (5 : Nat) < SizeT.size .u32)
      ∧ combine_hash .u32 1 7 ≠ combine_hash .u32 2 7
      ∧ combine_hash .u32 (seed_of .u32 5 7) 7 = 5 :=
  ⟨⟨by decide, by decide, by decide⟩,
    (combine_hash_seed_bijective .u32 7 1 2 5 (by decide) (by decide) (by decide)).2.1
      (by decide),
    (combine_hash_seed_bijective .u32 7 1 2 5 (by decide) (by decide) (by decide)).2.2.2⟩

/-- C14: for every seed `s`, in the 32-bit and in the 64-bit variant, the map
`value -> combine_hash(s, value)` is injective on words (two different value
hashes never give the same result) and reaches every word `y` (from the value
`value_of s y`): it is a bijection on the word. -/
theorem combine_hash_value_bijective (w : SizeT) (s v1 v2 y : Nat) (hs : s < w.size)
    (h1 : v1 < w.size) (h2 : v2 < w.size) (hy : y < w.size) :
    (combine_hash w s v1 = combine_hash w s v2 → v1 = v2)
      ∧ (v1 ≠ v2 → combine_hash w s v1 ≠ combine_hash w s v2)
      ∧ value_of w s y < w.size
      ∧ combine_hash w s (value_of w s y) = y := by
  have hinj : combine_hash w s v1 = combine_hash w s v2 → v1 = v2 := by
    cases w with
    | u32 => exact U32.combine_hash_impl_value_injective_u32 s v1 v2 hs h1 h2
    | u64 => exact U64.combine_hash_impl_value_injective s v1 v2 hs h1 h2
  have hsur : value_of w s y < w.size ∧ combine_hash w s (value_of w s y) = y := by
    cases w with
    | u32 => exact U32.combine_hash_impl_value_of_u32 s y hs hy
    | u64 => exact U64.combine_hash_impl_value_of s y hs hy
  exact ⟨hinj, fun hne heq => hne (hinj heq), hsur.1, hsur.2⟩

/-- C14 in the 64-bit variant at the seed `7`, the values `1` and `2` and the
result `5`. -/
theorem combine_hash_value_bijective_witness :
    ((7 : Nat) < SizeT.size .u64 ∧ (1 : Nat) < SizeT.size .u64 ∧ (2 : Nat) < SizeT.size .u64
        ∧ (5 : Nat) < SizeT.size .u64)
      ∧ combine_hash .u64 7 1 ≠ combine_hash .u64 7 2
      ∧ combine_hash .u64 7 (value_of .u64 7 5) = 5 :=
  ⟨⟨by decide, by decide, by decide, by decide⟩,
    (combine_hash_value_bijective .u64 7 1 2 5 (by decide) (by decide) (by decide)
      (by decide)).2.1 (by decide),
    (combine_hash_value_bijective .u64 7 1 2 5 (by decide) (by decide) (by decide)
      (by decide)).2.2.2⟩

/-! ## The top bit of the seed -/

/-- Clearing the top bit of a 64-bit word whose top bit is set. -/
theorem two_pow_63_add_xor (z : Nat) (hz : z < 2 ^ 63) : (2 ^ 63 + z) ^^^ 2 ^ 63 = z := by
  apply Nat.eq_of_testBit_eq
  intro j
  rw [Nat.testBit_xor, Nat.testBit_two_pow]
  rcases Nat.lt_trichotomy j 63 with hj | hj | hj
  · rw [Nat.testBit_two_pow_add_gt hj]
    have hd : decide (63 = j) = false := by simp; omega
    rw [hd, Bool.xor_false]
  · subst hj
    rw [Nat.testBit_two_pow_add_eq, Nat.testBit_lt_two_pow hz]
    rfl
  · have h1 : (2 ^ 63 + z).testBit j = false :=
      Nat.testBit_lt_two_pow
        (lt_of_lt_of_le (by omega : 2 ^ 63 + z < 2 ^ 64) (Nat.pow_le_pow_right (by decide) hj))
    have h2 : z.testBit j = false :=
      Nat.testBit_lt_two_pow
        (lt_of_lt_of_le hz (Nat.pow_le_pow_right (by decide) (by omega)))
    have hd : decide (63 = j) = false := by simp; omega
    rw [h1, h2, hd]
    rfl

/-- Flipping the top bit of a 64-bit word is adding `2^63` modulo `2^64`. -/
theorem xor_two_pow_63 (y : Nat) (hy : y < 2 ^ 64) :
    y ^^^ 2 ^ 63 = (y + 2 ^ 63) % 2 ^ 64 := by
  by_cases h : y < 2 ^ 63
  · have h1 := two_pow_63_add_xor y h
    have h2 : y ^^^ 2 ^ 63 = 2 ^ 63 + y := by
      rw [← h1, Nat.xor_assoc, Nat.xor_self, Nat.xor_zero, h1]
    rw [h2]
    omega
  · have h1 := two_pow_63_add_xor (y - 2 ^ 63) (by omega)
    have h2 : 2 ^ 63 + (y - 2 ^ 63) = y := by omega
    rw [h2] at h1
    rw [h1]
    omega

/-- The seed steps `x * m + 0xe6546b64` pass a flip of the top bit through. -/
theorem U64.step_top_bit (t : Nat) (ht : t < 2 ^ 64) :
    ((t ^^^ 2 ^ 63) * 0xc6a4a7935bd1e995 % 2 ^ 64 + 0xe6546b64) % 2 ^ 64
      = ((t * 0xc6a4a7935bd1e995 % 2 ^ 64 + 0xe6546b64) % 2 ^ 64) ^^^ 2 ^ 63 := by
  have hm : 2 ^ 63 * 0xc6a4a7935bd1e995 % 2 ^ 64 = 2 ^ 63 := by decide
  have hz : t * 0xc6a4a7935bd1e995 % 2 ^ 64 < 2 ^ 64 := Nat.mod_lt _ (by decide)
  rw [xor_two_pow_63 t ht, xor_two_pow_63 _ (Nat.mod_lt _ (by decide)), Nat.mod_mul_mod,
    Nat.add_mul, Nat.add_mod (t * 0xc6a4a7935bd1e995), hm]
  generalize t * 0xc6a4a7935bd1e995 % 2 ^ 64 = z at hz
  omega

/-- C16: in the 64-bit variant, flipping bit 63 of the seed flips bit 63 of the
result and no other bit: `combine_hash(s XOR 2^63, v) = combine_hash(s, v) XOR
2^63`. -/
theorem combine_hash_seed_top_bit (s v : Nat) (hs : s < 2 ^ 64) :
    combine_hash .u64 (s ^^^ 2 ^ 63) v = combine_hash .u64 s v ^^^ 2 ^ 63
      ∧ ∀ j : Nat, (combine_hash .u64 (s ^^^ 2 ^ 63) v).testBit j
          = ((combine_hash .u64 s v).testBit j ^^ decide (63 = j)) := by
  have hk := U64.mix_lt v
  have heq : combine_hash .u64 (s ^^^ 2 ^ 63) v = combine_hash .u64 s v ^^^ 2 ^ 63 := by
    show U64.combine_hash_impl (s ^^^ 2 ^ 63) v = U64.combine_hash_impl s v ^^^ 2 ^ 63
    rw [U64.combine_hash_impl_mix (s ^^^ 2 ^ 63) v, U64.combine_hash_impl_mix s v,
      Nat.xor_assoc, Nat.xor_comm (2 ^ 63), ← Nat.xor_assoc]
    exact U64.step_top_bit _ (Nat.xor_lt_two_pow hs hk)
  refine ⟨heq, ?_⟩
  intro j
  rw [heq, Nat.testBit_xor, Nat.testBit_two_pow]

/-- C16 at the seed `17` and the value `15`. -/
theorem combine_hash_seed_top_bit_witness :
    (17 : Nat) < 2 ^ 64
      ∧ combine_hash .u64 (17 ^^^ 2 ^ 63) 15 = combine_hash .u64 17 15 ^^^ 2 ^ 63 :=
  ⟨by decide, (combine_hash_seed_top_bit 17 15 (by decide)).1⟩

/-! ## Tuples that differ in one element -/

/-- The left fold of the 64-bit `combine_hash` from a 64-bit seed is a 64-bit
word. -/
theorem foldl_combine_hash_lt (l : List Nat) :
    ∀ s : Nat, s < 2 ^ 64 → List.foldl (combine_hash .u64) s l < 2 ^ 64 := by
  induction l with
  | nil => intro s hs; exact hs
  | cons a l ih =>
    intro s _
    rw [List.foldl_cons]
    exact ih _ (U64.combine_hash_impl_lt s a)

/-- Folding the same hashes into two different 64-bit seeds gives two different
results. -/
theorem foldl_combine_hash_seed_ne (l : List Nat) :
    ∀ s1 s2 : Nat, s1 < 2 ^ 64 → s2 < 2 ^ 64 → s1 ≠ s2 →
      List.foldl (combine_hash .u64) s1 l ≠ List.foldl (combine_hash .u64) s2 l := by
  induction l with
  | nil => intro s1 s2 _ _ hne; exact hne
  | cons a l ih =>
    intro s1 s2 h1 h2 hne
    rw [List.foldl_cons, List.foldl_cons]
    apply ih _ _ (U64.combine_hash_impl_lt s1 a) (U64.combine_hash_impl_lt s2 a)
    intro heq
    exact hne (U64.combine_hash_impl_seed_injective a s1 s2 h1 h2 heq)

/-- Two lists of hashes of the same length that differ at exactly one index,
where both hold a 64-bit word, fold to different results from the same 64-bit
seed. -/
theorem foldl_combine_hash_one_index (l1 : List Nat) :
    ∀ (l2 : List Nat) (s i : Nat) (h1 : i < l1.length) (h2 : i < l2.length),
      s < 2 ^ 64 → l1.length = l2.length → l1[i] < 2 ^ 64 → l2[i] < 2 ^ 64 →
      l1[i] ≠ l2[i] →
      (∀ (j : Nat) (hj1 : j < l1.length) (hj2 : j < l2.length), j ≠ i → l1[j] = l2[j]) →
      List.foldl (combine_hash .u64) s l1 ≠ List.foldl (combine_hash .u64) s l2 := by
  induction l1 with
  | nil => intro l2 s i h1; exact absurd h1 (Nat.not_lt_zero _)
  | cons a l1 ih =>
    intro l2 s i h1 h2 hs hlen ha hb hne hrest
    cases l2 with
    | nil => exact absurd h2 (Nat.not_lt_zero _)
    | cons b l2 =>
      have hlen2 : l1.length = l2.length := by simpa using hlen
      rw [List.foldl_cons, List.foldl_cons]
      cases i with
      | zero =>
        have htail : l1 = l2 := by
          apply List.ext_getElem hlen2
          intro n hn1 hn2
          have := hrest (n + 1) (by simpa using hn1) (by simpa using hn2) (by omega)
          simpa using this
        have hab : a ≠ b := by simpa using hne
        have ha2 : a < 2 ^ 64 := by simpa using ha
        have hb2 : b < 2 ^ 64 := by simpa using hb
        rw [htail]
        apply foldl_combine_hash_seed_ne l2 _ _ (U64.combine_hash_impl_lt s a)
          (U64.combine_hash_impl_lt s b)
        intro heq
        exact hab (U64.combine_hash_impl_value_injective s a b hs ha2 hb2 heq)
      | succ k =>
        have hab : a = b := by
          have := hrest 0 (by simp) (by simp) (by omega)
          simpa using this
        have hk1 : k < l1.length := by simpa using h1
        have hk2 : k < l2.length := by simpa using h2
        rw [← hab]
        apply ih l2 _ k hk1 hk2 (U64.combine_hash_impl_lt s a) hlen2
        · simpa using ha
        · simpa using hb
        · simpa using hne
        · intro j hj1 hj2 hjk
          have := hrest (j + 1) (by simpa using hj1) (by simpa using hj2) (by omega)
          simpa using this

/-- C15: in the 64-bit variant, two tuples of the same arity whose sequences of
element hashes differ at exactly one index and agree at all the others have
different hashes; in particular the hash of a 1-tuple determines the hash of
its element. -/
theorem hash_tuple_one_index_differs (t1 t2 : Tuple .u64) (i : Nat) (h1 : i < t1.length)
    (h2 : i < t2.length) (hlen : t1.length = t2.length)
    (hne : (t1[i]).hash ≠ (t2[i]).hash)
    (hrest : ∀ (j : Nat) (hj1 : j < t1.length) (hj2 : j < t2.length), j ≠ i →
      (t1[j]).hash = (t2[j]).hash) :
    hash_tuple t1 ≠ hash_tuple t2
      ∧ ∀ x y : Elem .u64, hash_tuple [x] = hash_tuple [y] → x.hash = y.hash := by
  have hgen : ∀ (u1 u2 : Tuple .u64) (k : Nat) (hk1 : k < u1.length) (hk2 : k < u2.length),
      u1.length = u2.length → (u1[k]).hash ≠ (u2[k]).hash →
      (∀ (j : Nat) (hj1 : j < u1.length) (hj2 : j < u2.length), j ≠ k →
        (u1[j]).hash = (u2[j]).hash) →
      hash_tuple u1 ≠ hash_tuple u2 := by
    intro u1 u2 k hk1 hk2 hl hn hr
    rw [hash_tuple_foldl, hash_tuple_foldl]
    apply foldl_combine_hash_one_index (u1.map Elem.hash) (u2.map Elem.hash) 0 k
      (by simpa using hk1) (by simpa using hk2) (by decide) (by simpa using hl)
    · rw [List.getElem_map]
      exact (u1[k]).hasher_lt _
    · rw [List.getElem_map]
      exact (u2[k]).hasher_lt _
    · rw [List.getElem_map, List.getElem_map]
      exact hn
    · intro j hj1 hj2 hjk
      rw [List.getElem_map, List.getElem_map]
      exact hr j (by simpa using hj1) (by simpa using hj2) hjk
  refine ⟨hgen t1 t2 i h1 h2 hlen hne hrest, ?_⟩
  intro x y hxy
  by_contra hn
  refine hgen [x] [y] 0 (by simp) (by simp) rfl hn ?_ hxy
  intro j hj1 hj2 hj0
  have : j < 1 := by simpa using hj1
  omega

/-- C15 at the tuples `(1, 2, 3)` and `(1, 5, 3)`, which differ at index `1`. -/
theorem hash_tuple_one_index_differs_witness :
    (1 < [intElem .u64 1, intElem .u64 2, intElem .u64 3].length
      ∧ (intElem .u64 2).hash ≠ (intElem .u64 5).hash)
      ∧ hash_tuple [intElem .u64 1, intElem .u64 2, intElem .u64 3]
          ≠ hash_tuple [intElem .u64 1, intElem .u64 5, intElem .u64 3] :=
  ⟨⟨by decide, by decide⟩,
    (hash_tuple_one_index_differs [intElem .u64 1, intElem .u64 2, intElem .u64 3]
      [intElem .u64 1, intElem .u64 5, intElem .u64 3] 1 (by decide) (by decide) rfl
      (by decide)
      (by
        intro j hj1 hj2 hj
        have hj3 : j < 3 := hj1
        interval_cases j
        · rfl
        · exact absurd rfl hj
        · rfl)).1⟩

end Mamba
